import Mathlib

/-!
Verification of the Hangman solver (`hangman_ml.py`).

The source is shallowly embedded: words and patterns are `List Char`,
the three frequency tables built by `HangmanMLAgent.train` are modelled
extensionally as count functions, Python's fallible operations return
`Option`, and the mutation-free agent methods become pure functions.
Hash-table iteration order (Python `dict` / `Counter` insertion order)
is determinized by a fixed first-occurrence enumeration of the corpus
characters; this affects only tie-breaking, which the specification
leaves open ("not specified beyond determinism-per-run").
-/

/-- The 26-letter alphabet string used by the terminal random fallback. -/
def alphabetList : List Char := "abcdefghijklmnopqrstuvwxyz".toList

/-- First-occurrence-preserving deduplication: the key order of a Python
`Counter` built from a sequence (each key listed at its first occurrence). -/
def uniqueFirst (s : List Char) : List Char := (s.reverse.dedup).reverse

/-- `enumL n w` is Python's `enumerate(w)` offset by `n`:
the list `[(n, w_0), (n+1, w_1), ...]`. -/
def enumL : Nat → List Char → List (Nat × Char)
  | _, [] => []
  | n, c :: cs => (n, c) :: enumL (n + 1) cs

/-- All pairs of consecutive characters of a word, in order.  This is the
spec-side description of what the bigram table counts ("prev immediately
followed by next as consecutive characters"). -/
def bigrams : List Char → List (Char × Char)
  | [] => []
  | [_] => []
  | a :: b :: rest => (a, b) :: bigrams (b :: rest)

/-- The three frequency tables owned by `HangmanMLAgent`, modelled
extensionally as count functions (`Counter` lookup of a missing key is 0). -/
structure FreqTables where
  overall : Char → Nat
  positional : Nat → Char → Nat
  bigram : Char → Char → Nat

/-- `Counter[c] += 1`. -/
def bump (f : Char → Nat) (c : Char) : Char → Nat :=
  fun d => if d = c then f d + 1 else f d

/-- `positional_frequency[i][c] += 1`. -/
def bumpPos (f : Nat → Char → Nat) (i : Nat) (c : Char) : Nat → Char → Nat :=
  fun j d => if j = i ∧ d = c then f j d + 1 else f j d

/-- `bigram_frequency[p][c] += 1`. -/
def bumpBig (f : Char → Char → Nat) (p c : Char) : Char → Char → Nat :=
  fun q d => if q = p ∧ d = c then f q d + 1 else f q d

/-- The body of `train`'s inner loop for one word: `i` is the enumeration
index and `prev` caches `word[i-1]` (`none` exactly when `i = 0`, so the
`if i > 0` guard of the source becomes a match on `prev`). -/
def trainWordAux : Nat → Option Char → FreqTables → List Char → FreqTables
  | _, _, t, [] => t
  | i, prev, t, c :: rest =>
      trainWordAux (i + 1) (some c)
        { overall := bump t.overall c,
          positional := bumpPos t.positional i c,
          bigram := match prev with
            | none => t.bigram
            | some p => bumpBig t.bigram p c } rest

/-- Tables before training: every count is zero. -/
def emptyTables : FreqTables := ⟨fun _ => 0, fun _ _ => 0, fun _ _ => 0⟩

/-- `HangmanMLAgent.train`: one pass over the corpus, incrementing the
overall, positional and bigram counters for every character. -/
def trainTables (dict : List (List Char)) : FreqTables :=
  dict.foldl (fun t w => trainWordAux 0 none t w) emptyTables

theorem mem_uniqueFirst {c : Char} {s : List Char} : c ∈ uniqueFirst s ↔ c ∈ s := by
  simp [uniqueFirst, List.mem_reverse, List.mem_dedup]

theorem nodup_uniqueFirst (s : List Char) : (uniqueFirst s).Nodup := by
  simpa [uniqueFirst, List.nodup_reverse] using List.nodup_dedup s.reverse

theorem enumL_count (w : List Char) (n j : Nat) (d : Char) :
    (enumL n w).count (j, d) = if n ≤ j ∧ w[j - n]? = some d then 1 else 0 := by
  induction w generalizing n with
  | nil => simp [enumL]
  | cons c cs ih =>
      simp only [enumL, List.count_cons, ih (n + 1), beq_iff_eq, Prod.ext_iff]
      by_cases hj : j = n
      · subst hj
        have h0 : ¬ (j + 1 ≤ j) := by omega
        have hsub : j - j = 0 := by omega
        simp only [h0, false_and, if_false, hsub]
        by_cases hcd : c = d
        · simp [hcd]
        · simp [hcd, fun h : d = c => hcd h.symm]
      · have hj' : n ≠ j := fun h => hj h.symm
        by_cases hle : n ≤ j
        · have h1 : n + 1 ≤ j := by omega
          have h2 : j - n = (j - (n + 1)) + 1 := by omega
          simp [h1, h2, hle, hj', List.getElem?_cons_succ]
        · have h1 : ¬ (n + 1 ≤ j) := by omega
          simp [h1, hle, hj']

theorem trainWordAux_positional (w : List Char) :
    ∀ (i : Nat) (prev : Option Char) (t : FreqTables) (j : Nat) (d : Char),
    (trainWordAux i prev t w).positional j d
      = t.positional j d + (enumL i w).count (j, d) := by
  induction w with
  | nil => intro i prev t j d; simp [trainWordAux, enumL]
  | cons c cs ih =>
      intro i prev t j d
      simp only [trainWordAux, enumL, List.count_cons, beq_iff_eq, Prod.ext_iff]
      rw [ih]
      simp only [bumpPos]
      by_cases h : j = i ∧ d = c
      · obtain ⟨h1, h2⟩ := h
        subst h1; subst h2
        simp only [and_self, if_true, if_pos trivial, true_and]
        omega
      · have h' : ¬ (i = j ∧ c = d) := fun hc => h ⟨hc.1.symm, hc.2.symm⟩
        simp [h, h']

/-- `prependOpt prev w` is `w` with the cached previous character, if any,
put back in front: the window of the word still relevant to bigram counts. -/
def prependOpt : Option Char → List Char → List Char
  | none, w => w
  | some q, w => q :: w

theorem trainWordAux_bigram (w : List Char) :
    ∀ (i : Nat) (prev : Option Char) (t : FreqTables) (p d : Char),
    (trainWordAux i prev t w).bigram p d
      = t.bigram p d + (bigrams (prependOpt prev w)).count (p, d) := by
  induction w with
  | nil =>
      intro i prev t p d
      cases prev <;> simp [trainWordAux, bigrams, prependOpt]
  | cons c cs ih =>
      intro i prev t p d
      cases prev with
      | none =>
          simp only [trainWordAux, prependOpt]
          rw [ih]
          rfl
      | some q =>
          simp only [trainWordAux, prependOpt]
          rw [ih]
          simp only [prependOpt, bigrams, List.count_cons, bumpBig, beq_iff_eq,
            Prod.ext_iff]
          by_cases h : p = q ∧ d = c
          · obtain ⟨h1, h2⟩ := h
            subst h1; subst h2
            simp
            omega
          · have h' : ¬ (q = p ∧ c = d) := fun hc => h ⟨hc.1.symm, hc.2.symm⟩
            simp [h, h']

theorem trainTables_positional (dict : List (List Char)) (j : Nat) (d : Char) :
    (trainTables dict).positional j d
      = dict.countP (fun w => w[j]? == some d) := by
  have main : ∀ (l : List (List Char)) (t : FreqTables),
      (l.foldl (fun t w => trainWordAux 0 none t w) t).positional j d
        = t.positional j d + l.countP (fun w => w[j]? == some d) := by
    intro l
    induction l with
    | nil => intro t; simp
    | cons w ws ih =>
        intro t
        simp only [List.foldl_cons, ih, List.countP_cons]
        rw [trainWordAux_positional]
        have : (enumL 0 w).count (j, d) = if w[j]? = some d then 1 else 0 := by
          rw [enumL_count]
          simp
        rw [this]
        by_cases h : w[j]? = some d
        · simp [h]; omega
        · simp [h]
  simpa [trainTables, emptyTables] using main dict emptyTables

theorem trainTables_bigram (dict : List (List Char)) (p d : Char) :
    (trainTables dict).bigram p d
      = (dict.map (fun w => (bigrams w).count (p, d))).sum := by
  have main : ∀ (l : List (List Char)) (t : FreqTables),
      (l.foldl (fun t w => trainWordAux 0 none t w) t).bigram p d
        = t.bigram p d + (l.map (fun w => (bigrams w).count (p, d))).sum := by
    intro l
    induction l with
    | nil => intro t; simp
    | cons w ws ih =>
        intro t
        simp only [List.foldl_cons, ih, List.map_cons, List.sum_cons]
        rw [trainWordAux_bigram]
        simp only [prependOpt]
        omega
  simpa [trainTables, emptyTables] using main dict emptyTables

/-- The trained `HangmanMLAgent`: the loaded corpus plus the three
frequency tables (named as in the source). -/
structure Agent where
  full_dictionary : List (List Char)
  positional_frequency : Nat → Char → Nat
  bigram_frequency : Char → Char → Nat
  overall_frequency : Char → Nat

/-- `HangmanMLAgent.__init__`: store the corpus and run `train`. -/
def mkAgent (dict : List (List Char)) : Agent :=
  { full_dictionary := dict,
    positional_frequency := (trainTables dict).positional,
    bigram_frequency := (trainTables dict).bigram,
    overall_frequency := (trainTables dict).overall }

/-- The per-word body of `_filter_dictionary`'s loop (lengths being equal,
the indexed scan over the word is a scan over `pattern.zip word`): at a
placeholder the word's character must not be a guessed letter, elsewhere
it must equal the pattern's character. -/
def word_matches (pattern guessed word : List Char) : Bool :=
  (pattern.zip word).all fun pc =>
    if pc.1 = '_' then !(guessed.contains pc.2) else pc.1 == pc.2

/-- `HangmanMLAgent._filter_dictionary`: keep the corpus words of the
pattern's length that match it. -/
def filter_dictionary (dict : List (List Char)) (pattern guessed : List Char) :
    List (List Char) :=
  dict.filter fun word =>
    word.length == pattern.length && word_matches pattern guessed word

theorem step_iff (p c : Char) (guessed : List Char) :
    ((if p = '_' then !(guessed.contains c) else p == c) = true)
      ↔ ((p = '_' → c ∉ guessed) ∧ (p ≠ '_' → c = p)) := by
  by_cases hp : p = '_'
  · simp [hp]
  · simp only [if_neg hp, beq_iff_eq]
    constructor
    · intro h
      exact ⟨fun hc => absurd hc hp, fun _ => h.symm⟩
    · intro h
      exact (h.2 hp).symm

theorem word_matches_iff (pattern guessed : List Char) :
    ∀ (word : List Char), word.length = pattern.length →
    (word_matches pattern guessed word = true
      ↔ ∀ i, i < pattern.length →
          (pattern.getD i ' ' = '_' → word.getD i ' ' ∉ guessed) ∧
          (pattern.getD i ' ' ≠ '_' → word.getD i ' ' = pattern.getD i ' ')) := by
  induction pattern with
  | nil =>
      intro word hlen
      simp [word_matches]
  | cons p ps ih =>
      intro word hlen
      cases word with
      | nil => simp at hlen
      | cons c cs =>
          have hlen' : cs.length = ps.length := by simpa using hlen
          simp only [word_matches, List.zip_cons_cons, List.all_cons, Bool.and_eq_true]
          rw [show (List.all (ps.zip cs) fun pc =>
              if pc.1 = '_' then !(guessed.contains pc.2) else pc.1 == pc.2)
              = word_matches ps guessed cs from rfl]
          rw [ih cs hlen', step_iff]
          constructor
          · rintro ⟨h0, hrest⟩ i hi
            cases i with
            | zero => simpa using h0
            | succ i' =>
                have hi' : i' < ps.length := by simpa using hi
                simpa using hrest i' hi'
          · intro h
            constructor
            · simpa using h 0 (by simp)
            · intro i hi
              simpa using h (i + 1) (by simpa using hi)

/-- C4: a corpus word is in the list returned by the candidate filter iff
its length equals the pattern's, at every placeholder position its
character is not a guessed letter, and at every revealed position its
character equals the pattern's character there. -/
theorem filter_dictionary_mem_iff (dict : List (List Char))
    (pattern guessed w : List Char) :
    w ∈ filter_dictionary dict pattern guessed
      ↔ w ∈ dict ∧ w.length = pattern.length ∧
          ∀ i, i < pattern.length →
            (pattern.getD i ' ' = '_' → w.getD i ' ' ∉ guessed) ∧
            (pattern.getD i ' ' ≠ '_' → w.getD i ' ' = pattern.getD i ' ') := by
  simp only [filter_dictionary, List.mem_filter, Bool.and_eq_true, beq_iff_eq]
  constructor
  · rintro ⟨hmem, hlen, hmatch⟩
    exact ⟨hmem, hlen, (word_matches_iff pattern guessed w hlen).mp hmatch⟩
  · rintro ⟨hmem, hlen, hcond⟩
    exact ⟨hmem, hlen, (word_matches_iff pattern guessed w hlen).mpr hcond⟩

theorem getElem?_eq_some_iff_getD (w : List Char) (i : Nat) (c dflt : Char) :
    w[i]? = some c ↔ (i < w.length ∧ w.getD i dflt = c) := by
  rw [List.getD_eq_getElem?_getD]
  constructor
  · intro h
    obtain ⟨h1, h2⟩ := List.getElem?_eq_some.mp h
    exact ⟨h1, by simp [h]⟩
  · rintro ⟨h1, h2⟩
    rw [List.getElem?_eq_getElem h1] at h2 ⊢
    simpa using h2

/-- C5: after training, the positional table at `(i, c)` counts the corpus
words of length greater than `i` whose `i`-th character is `c`. -/
theorem positional_frequency_spec (dict : List (List Char)) (i : Nat) (c : Char) :
    (trainTables dict).positional i c
      = (dict.filter fun w => decide (i < w.length) && decide (w.getD i ' ' = c)).length := by
  rw [trainTables_positional]
  rw [← List.countP_eq_length_filter]
  apply List.countP_congr
  intro w _
  rw [beq_iff_eq, Bool.and_eq_true, decide_eq_true_eq, decide_eq_true_eq]
  exact getElem?_eq_some_iff_getD w i c ' '

/-- C6: after training, the bigram table at `(p, d)` is the total number of
occurrences of `p` immediately followed by `d` as consecutive characters
across all corpus words. -/
theorem bigram_frequency_spec (dict : List (List Char)) (p d : Char) :
    (trainTables dict).bigram p d
      = (dict.map fun w => (bigrams w).count (p, d)).sum :=
  trainTables_bigram dict p d

/-- Descending-count order used by `Counter.most_common` (stable sort on
the count, largest first). -/
def byCountDesc : (Char × Nat) → (Char × Nat) → Prop := fun x y => y.2 ≤ x.2

instance : DecidableRel byCountDesc := fun x y => Nat.decLe y.2 x.2

instance : IsTotal (Char × Nat) byCountDesc := ⟨fun x y => Nat.le_total y.2 x.2⟩

instance : IsTrans (Char × Nat) byCountDesc :=
  ⟨fun _ _ _ hab hbc => Nat.le_trans hbc hab⟩

/-- The `(key, count)` items of `Counter(s)`, keys in first-occurrence order. -/
def counterItems (s : List Char) : List (Char × Nat) :=
  (uniqueFirst s).map fun c => (c, s.count c)

/-- `Counter(s).most_common()`: the items sorted by count, largest first. -/
def most_common (s : List Char) : List (Char × Nat) :=
  List.insertionSort byCountDesc (counterItems s)

/-- The characters occurring anywhere in the corpus, each once: the key
universe of every trained `Counter`. -/
def corpusChars (a : Agent) : List Char := uniqueFirst a.full_dictionary.flatten

/-- The items of `positional_frequency[i]`: the characters with a positive
count at position `i`, with their counts. -/
def positionalItems (a : Agent) (i : Nat) : List (Char × Nat) :=
  ((corpusChars a).filter fun c => decide (0 < a.positional_frequency i c)).map
    fun c => (c, a.positional_frequency i c)

/-- The items of `bigram_frequency[p]`: the characters with a positive
count after `p`, with their counts. -/
def bigramItems (a : Agent) (p : Char) : List (Char × Nat) :=
  ((corpusChars a).filter fun c => decide (0 < a.bigram_frequency p c)).map
    fun c => (c, a.bigram_frequency p c)

/-- The items of `overall_frequency`. -/
def overallItems (a : Agent) : List (Char × Nat) :=
  ((corpusChars a).filter fun c => decide (0 < a.overall_frequency c)).map
    fun c => (c, a.overall_frequency c)

/-- `overall_frequency.most_common()`. -/
def overall_most_common (a : Agent) : List (Char × Nat) :=
  List.insertionSort byCountDesc (overallItems a)

/-- `letter_scores[k] += v` on a Python dict modelled as an association
list: add to the first entry with key `k`, or append a new entry. -/
def addScore : List (Char × ℚ) → Char → ℚ → List (Char × ℚ)
  | [], k, v => [(k, v)]
  | (k', v') :: rest, k, v =>
      if k' = k then (k', v' + v) :: rest else (k', v') :: addScore rest k v

/-- Dict lookup with the `defaultdict(float)` default 0. -/
def lookupScore : List (Char × ℚ) → Char → ℚ
  | [], _ => 0
  | (k', v) :: rest, k => if k' = k then v else lookupScore rest k

/-- One iteration of the fallback scoring loop of `guess`, at enumerated
position `ic`: a placeholder adds the positional counts of un-guessed
letters, a revealed character followed by a placeholder adds 1.5 times its
bigram counts. -/
def scoreStep (a : Agent) (pattern guessed : List Char) (d : List (Char × ℚ))
    (ic : Nat × Char) : List (Char × ℚ) :=
  if ic.2 = '_' then
    (positionalItems a ic.1).foldl
      (fun d p => if guessed.contains p.1 then d else addScore d p.1 (p.2 : ℚ)) d
  else if pattern[ic.1 + 1]? = some '_' then
    (bigramItems a ic.2).foldl
      (fun d p => if guessed.contains p.1 then d else addScore d p.1 ((p.2 : ℚ) * (3 / 2))) d
  else d

/-- The `letter_scores` dict built by the fallback strategy of `guess`. -/
def letter_scores (a : Agent) (pattern guessed : List Char) : List (Char × ℚ) :=
  (enumL 0 pattern).foldl (scoreStep a pattern guessed) []

/-- Python `max(d, key=d.get)` over a non-empty dict: scan the keys and
keep the first one whose value is strictly greater than the best so far. -/
def maxKeyAux : (Char × ℚ) → List (Char × ℚ) → Char
  | best, [] => best.1
  | best, (k, v) :: rest =>
      if best.2 < v then maxKeyAux (k, v) rest else maxKeyAux best rest

/-- `max(letter_scores, key=letter_scores.get)`, `none` on the empty dict
(where Python would raise); the source guards this with `if letter_scores:`. -/
def maxKey : List (Char × ℚ) → Option Char
  | [] => none
  | e :: rest => some (maxKeyAux e rest)

/-- `HangmanMLAgent.guess`: the four-stage cascade.  `pick` stands for
`random.choice`, an arbitrary selection function supplied by the caller;
`pick` applied to the empty list models the `IndexError` of
`random.choice([])` by returning `none`. -/
def guess (a : Agent) (pattern guessed : List Char)
    (pick : List Char → Option Char) : Option Char :=
  match (if (filter_dictionary a.full_dictionary pattern guessed).isEmpty then none
         else (most_common (filter_dictionary a.full_dictionary pattern guessed).flatten).find?
            fun p => !guessed.contains p.1) with
  | some p => some p.1
  | none =>
      match maxKey (letter_scores a pattern guessed) with
      | some c => some c
      | none =>
          match (overall_most_common a).find? (fun p => !guessed.contains p.1) with
          | some p => some p.1
          | none => pick (alphabetList.filter fun c => !guessed.contains c)

/-- `guess` with the agent's state threaded through explicitly: the method
body assigns to no attribute of `self`, so the state passes through
unchanged.  This is the state-passing translation used to express the
frame property C2. -/
def guessS (a : Agent) (pattern guessed : List Char)
    (pick : List Char → Option Char) : Option Char × Agent :=
  (guess a pattern guessed pick, a)

/-- C2: a call to `guess` leaves the corpus and all three frequency tables
exactly as they were: the agent state returned by the state-passing
translation is the input state, component by component. -/
theorem guess_preserves_agent_state (a : Agent) (pattern guessed : List Char)
    (pick : List Char → Option Char) :
    (guessS a pattern guessed pick).2.full_dictionary = a.full_dictionary ∧
    (guessS a pattern guessed pick).2.positional_frequency = a.positional_frequency ∧
    (guessS a pattern guessed pick).2.bigram_frequency = a.bigram_frequency ∧
    (guessS a pattern guessed pick).2.overall_frequency = a.overall_frequency :=
  ⟨rfl, rfl, rfl, rfl⟩

/-- The state held by `HangmanGame` (field names as in the source;
`tries_left` is an integer because the source can decrement it past 0). -/
structure GameState where
  secret_word : List Char
  max_tries : Int
  tries_left : Int
  guessed_letters : List Char
  current_word : List Char

/-- `HangmanGame.__init__`: lowercase the secret, full attempts, no
guesses, all placeholders. -/
def initGame (secret : List Char) (maxTries : Int) : GameState :=
  { secret_word := secret.map Char.toLower,
    max_tries := maxTries,
    tries_left := maxTries,
    guessed_letters := [],
    current_word := List.replicate (secret.map Char.toLower).length '_' }

/-- One iteration of the reveal loop of `make_guess`: if the secret holds
the guessed letter at this position, overwrite the pattern there. -/
def revealStep (c : Char) (cur : List Char) (ich : Nat × Char) : List Char :=
  if ich.2 = c then cur.set ich.1 c else cur

/-- The reveal loop of `make_guess`: for every position of the secret
holding the guessed letter, overwrite the pattern there. -/
def revealLoop (secret : List Char) (c : Char) (cur : List Char) : List Char :=
  (enumL 0 secret).foldl (revealStep c) cur

/-- `HangmanGame.make_guess`: no-op on an absent or repeated letter;
otherwise record the letter and either reveal it or lose an attempt. -/
def make_guess (s : GameState) (letter : Option Char) : GameState :=
  match letter with
  | none => s
  | some c =>
      if s.guessed_letters.contains c then s
      else if s.secret_word.contains c then
        { s with guessed_letters := c :: s.guessed_letters,
                 current_word := revealLoop s.secret_word c s.current_word }
      else
        { s with guessed_letters := c :: s.guessed_letters,
                 tries_left := s.tries_left - 1 }

/-- The game states reachable from the initial all-placeholder state by
any sequence of guesses. -/
inductive Reachable (secret : List Char) (maxTries : Int) : GameState → Prop where
  | base : Reachable secret maxTries (initGame secret maxTries)
  | step (s : GameState) (l : Option Char) :
      Reachable secret maxTries s → Reachable secret maxTries (make_guess s l)

theorem make_guess_of_mem {s : GameState} {c : Char}
    (h1 : c ∈ s.guessed_letters) : make_guess s (some c) = s := by
  simp [make_guess, h1]

theorem make_guess_of_hit {s : GameState} {c : Char}
    (h1 : c ∉ s.guessed_letters) (h2 : c ∈ s.secret_word) :
    make_guess s (some c)
      = { s with guessed_letters := c :: s.guessed_letters,
                 current_word := revealLoop s.secret_word c s.current_word } := by
  simp [make_guess, h1, h2]

theorem make_guess_of_miss {s : GameState} {c : Char}
    (h1 : c ∉ s.guessed_letters) (h2 : c ∉ s.secret_word) :
    make_guess s (some c)
      = { s with guessed_letters := c :: s.guessed_letters,
                 tries_left := s.tries_left - 1 } := by
  simp [make_guess, h1, h2]

/-- C8: applying the same letter twice yields exactly the state of
applying it once, and applying an absent letter changes nothing. -/
theorem make_guess_idempotent (s : GameState) (l : Option Char) :
    make_guess (make_guess s l) l = make_guess s l ∧ make_guess s none = s := by
  refine ⟨?_, rfl⟩
  cases l with
  | none => rfl
  | some c =>
      by_cases h1 : c ∈ s.guessed_letters
      · simp [make_guess, h1]
      · by_cases h2 : c ∈ s.secret_word
        · simp [make_guess, h1, h2]
        · simp [make_guess, h1, h2]

/-- C9: the guessed set never shrinks and grows by exactly one precisely
on a fresh non-empty letter; the attempts counter never increases. -/
theorem make_guess_monotone (s : GameState) (l : Option Char) :
    s.guessed_letters ⊆ (make_guess s l).guessed_letters ∧
    ((make_guess s l).guessed_letters.length = s.guessed_letters.length + 1
      ↔ ∃ c, l = some c ∧ c ∉ s.guessed_letters) ∧
    (make_guess s l).tries_left ≤ s.tries_left := by
  cases l with
  | none =>
      refine ⟨List.Subset.refl _, ?_, le_refl _⟩
      simp [make_guess]
  | some c =>
      by_cases h1 : c ∈ s.guessed_letters
      · rw [make_guess_of_mem h1]
        refine ⟨List.Subset.refl _, ?_, le_refl _⟩
        constructor
        · intro h; omega
        · rintro ⟨c', hc', hnot⟩
          obtain rfl : c = c' := by simpa using hc'
          exact absurd h1 hnot
      · by_cases h2 : c ∈ s.secret_word
        · rw [make_guess_of_hit h1 h2]
          refine ⟨List.subset_cons_self c s.guessed_letters, ?_, le_refl _⟩
          simp [h1]
        · rw [make_guess_of_miss h1 h2]
          refine ⟨List.subset_cons_self c s.guessed_letters, ?_,
            show s.tries_left - 1 ≤ s.tries_left by omega⟩
          simp [h1]

theorem foldl_revealStep_length (c : Char) (ps : List (Nat × Char)) :
    ∀ cur : List Char, (ps.foldl (revealStep c) cur).length = cur.length := by
  induction ps with
  | nil => intro cur; rfl
  | cons p ps ih =>
      intro cur
      simp only [List.foldl_cons]
      rw [ih]
      by_cases h : p.2 = c
      · simp [revealStep, h]
      · simp [revealStep, h]

theorem revealLoop_length (secret : List Char) (c : Char) (cur : List Char) :
    (revealLoop secret c cur).length = cur.length :=
  foldl_revealStep_length c (enumL 0 secret) cur

theorem foldl_revealStep_getElem? (c : Char) (secret : List Char) :
    ∀ (n : Nat) (cur : List Char) (i : Nat),
    ((enumL n secret).foldl (revealStep c) cur)[i]?
      = if n ≤ i ∧ i < cur.length ∧ secret[i - n]? = some c then some c
        else cur[i]? := by
  induction secret with
  | nil =>
      intro n cur i
      simp [enumL]
  | cons ch cs ih =>
      intro n cur i
      simp only [enumL, List.foldl_cons]
      rw [ih (n + 1)]
      by_cases hch : ch = c
      · subst hch
        rw [show revealStep ch cur (n, ch) = cur.set n ch from by
          simp [revealStep]]
        rcases Nat.lt_trichotomy i n with hi | hi | hi
        · have hset : (cur.set n ch)[i]? = cur[i]? := by
            rw [List.getElem?_set]
            exact if_neg (by omega)
          rw [if_neg (fun h => by omega : ¬ (n + 1 ≤ i ∧ i < (cur.set n ch).length ∧
              cs[i - (n + 1)]? = some ch)),
            if_neg (fun h => by omega : ¬ (n ≤ i ∧ i < cur.length ∧
              (ch :: cs)[i - n]? = some ch)), hset]
        · subst hi
          have hset : (cur.set i ch)[i]? = if i < cur.length then some ch else none := by
            rw [List.getElem?_set]
            exact if_pos rfl
          rw [if_neg (fun h => by omega : ¬ (i + 1 ≤ i ∧ i < (cur.set i ch).length ∧
              cs[i - (i + 1)]? = some ch)), hset]
          have hsub : i - i = 0 := by omega
          by_cases hn : i < cur.length
          · rw [if_pos hn, if_pos ⟨le_refl i, hn, by simp [hsub]⟩]
          · rw [if_neg hn,
              if_neg (fun h => hn h.2.1 : ¬ (i ≤ i ∧ i < cur.length ∧
                (ch :: cs)[i - i]? = some ch)),
              List.getElem?_eq_none (by omega)]
        · have hset : (cur.set n ch)[i]? = cur[i]? := by
            rw [List.getElem?_set]
            exact if_neg (by omega)
          have h2 : i - n = (i - (n + 1)) + 1 := by omega
          rw [h2, List.getElem?_cons_succ, List.length_set, hset]
          refine if_congr ?_ rfl rfl
          constructor
          · rintro ⟨h, hr⟩
            exact ⟨by omega, hr⟩
          · rintro ⟨h, hr⟩
            exact ⟨by omega, hr⟩
      · rw [show revealStep c cur (n, ch) = cur from by
          simp [revealStep, hch]]
        by_cases hi : i = n
        · subst hi
          have hsub : i - i = 0 := by omega
          rw [if_neg (fun h => by omega : ¬ (i + 1 ≤ i ∧ i < cur.length ∧
              cs[i - (i + 1)]? = some c))]
          rw [if_neg (fun h => hch (by
            have h3 := h.2.2
            rw [hsub] at h3
            simpa using h3) : ¬ (i ≤ i ∧ i < cur.length ∧
              (ch :: cs)[i - i]? = some c))]
        · by_cases hle : n ≤ i
          · have h2 : i - n = (i - (n + 1)) + 1 := by omega
            rw [h2, List.getElem?_cons_succ]
            refine if_congr ?_ rfl rfl
            constructor
            · rintro ⟨h, hr⟩
              exact ⟨by omega, hr⟩
            · rintro ⟨h, hr⟩
              exact ⟨by omega, hr⟩
          · rw [if_neg (fun h => by omega : ¬ (n + 1 ≤ i ∧ i < cur.length ∧
                cs[i - (n + 1)]? = some c)),
              if_neg (fun h => by omega : ¬ (n ≤ i ∧ i < cur.length ∧
                (ch :: cs)[i - n]? = some c))]

theorem revealLoop_getElem? (secret : List Char) (c : Char) (cur : List Char)
    (i : Nat) :
    (revealLoop secret c cur)[i]?
      = if i < cur.length ∧ secret[i]? = some c then some c else cur[i]? := by
  rw [revealLoop, foldl_revealStep_getElem? c secret 0 cur i]
  simp

theorem reachable_invariant (secret : List Char) (mt : Int) (s : GameState)
    (h : Reachable secret mt s) :
    s.current_word.length = s.secret_word.length ∧
    ∀ i, i < s.current_word.length → s.current_word.getD i '_' ≠ '_' →
      s.current_word.getD i '_' = s.secret_word.getD i '_' := by
  induction h with
  | base =>
      constructor
      · simp [initGame]
      · intro i hi hne
        exfalso
        apply hne
        simp only [initGame] at hi ⊢
        simp only [List.length_replicate, List.length_map] at hi
        rw [List.getD_eq_getElem?_getD]
        simp [List.getElem?_replicate, hi]
  | step s l hr ih =>
      cases l with
      | none => exact ih
      | some c =>
          by_cases h1 : c ∈ s.guessed_letters
          · rw [make_guess_of_mem h1]
            exact ih
          · by_cases h2 : c ∈ s.secret_word
            · rw [make_guess_of_hit h1 h2]
              refine ⟨?_, ?_⟩
              · show (revealLoop s.secret_word c s.current_word).length
                  = s.secret_word.length
                rw [revealLoop_length]
                exact ih.1
              · intro i hi hne
                show (revealLoop s.secret_word c s.current_word).getD i '_'
                  = s.secret_word.getD i '_'
                have hi' : i < s.current_word.length := by
                  have hlen : (revealLoop s.secret_word c s.current_word).length
                      = s.current_word.length := revealLoop_length _ _ _
                  have hi2 : i < (revealLoop s.secret_word c s.current_word).length := hi
                  omega
                rw [List.getD_eq_getElem?_getD, revealLoop_getElem?]
                by_cases hrev : i < s.current_word.length ∧ s.secret_word[i]? = some c
                · rw [if_pos hrev]
                  rw [List.getD_eq_getElem?_getD, hrev.2]
                · rw [if_neg hrev, ← List.getD_eq_getElem?_getD]
                  apply ih.2 i hi'
                  have : (revealLoop s.secret_word c s.current_word).getD i '_'
                      = s.current_word.getD i '_' := by
                    rw [List.getD_eq_getElem?_getD, revealLoop_getElem?,
                      if_neg hrev, ← List.getD_eq_getElem?_getD]
                  rw [← this]
                  exact hne
            · rw [make_guess_of_miss h1 h2]
              exact ih

/-- C10: in every game state reachable from the initial all-placeholder
state, every revealed (non-placeholder) position of the pattern holds the
secret word's character at that index, and a revealed position is left
unchanged by every further guess. -/
theorem reachable_pattern_invariant (secret : List Char) (mt : Int)
    (s : GameState) (h : Reachable secret mt s) :
    (∀ i, i < s.current_word.length → s.current_word.getD i '_' ≠ '_' →
        s.current_word.getD i '_' = s.secret_word.getD i '_') ∧
    (∀ (l : Option Char) (i : Nat), i < s.current_word.length →
        s.current_word.getD i '_' ≠ '_' →
        (make_guess s l).current_word.getD i '_' = s.current_word.getD i '_') := by
  have inv := reachable_invariant secret mt s h
  refine ⟨inv.2, ?_⟩
  intro l i hi hne
  cases l with
  | none => rfl
  | some c =>
      by_cases h1 : c ∈ s.guessed_letters
      · rw [make_guess_of_mem h1]
      · by_cases h2 : c ∈ s.secret_word
        · rw [make_guess_of_hit h1 h2]
          show (revealLoop s.secret_word c s.current_word).getD i '_'
            = s.current_word.getD i '_'
          rw [List.getD_eq_getElem?_getD, revealLoop_getElem?]
          by_cases hrev : i < s.current_word.length ∧ s.secret_word[i]? = some c
          · rw [if_pos hrev]
            have hval := inv.2 i hi hne
            rw [hval, List.getD_eq_getElem?_getD, hrev.2]
          · rw [if_neg hrev, ← List.getD_eq_getElem?_getD]
        · rw [make_guess_of_miss h1 h2]

theorem reachable_pattern_invariant_witness :
    (make_guess (make_guess (initGame ('c' :: 'a' :: 't' :: []) 6) (some 'c'))
        (some 'x')).current_word.getD 0 '_'
      = (make_guess (initGame ('c' :: 'a' :: 't' :: []) 6)
          (some 'c')).current_word.getD 0 '_' :=
  (reachable_pattern_invariant ('c' :: 'a' :: 't' :: []) 6 _
      (Reachable.step _ (some 'c') Reachable.base)).2
    (some 'x') 0 (by decide) (by decide)

theorem addScore_entry_inv (guessed : List Char) (k : Char) (v : ℚ)
    (hk : k ∉ guessed) (hv : 0 ≤ v) :
    ∀ d : List (Char × ℚ), (∀ e ∈ d, e.1 ∉ guessed ∧ 0 ≤ e.2) →
    ∀ e ∈ addScore d k v, e.1 ∉ guessed ∧ 0 ≤ e.2 := by
  intro d
  induction d with
  | nil =>
      intro _ e he
      simp only [addScore, List.mem_singleton] at he
      subst he
      exact ⟨hk, hv⟩
  | cons p rest ih =>
      intro hd e he
      obtain ⟨k', v'⟩ := p
      simp only [addScore] at he
      by_cases hkk : k' = k
      · rw [if_pos hkk] at he
        rcases List.mem_cons.mp he with h1 | h1
        · subst h1
          refine ⟨(hd (k', v') (List.mem_cons_self _ _)).1, ?_⟩
          have := (hd (k', v') (List.mem_cons_self _ _)).2
          have : (0 : ℚ) ≤ v' + v := add_nonneg this hv
          simpa using this
        · exact hd e (List.mem_cons_of_mem _ h1)
      · rw [if_neg hkk] at he
        rcases List.mem_cons.mp he with h1 | h1
        · subst h1
          exact hd (k', v') (List.mem_cons_self _ _)
        · exact ih (fun e' he' => hd e' (List.mem_cons_of_mem _ he')) e h1

theorem foldl_addScore_inv (guessed : List Char) (f : (Char × Nat) → ℚ)
    (hf : ∀ p, 0 ≤ f p) (ps : List (Char × Nat)) :
    ∀ d : List (Char × ℚ), (∀ e ∈ d, e.1 ∉ guessed ∧ 0 ≤ e.2) →
    ∀ e ∈ ps.foldl
        (fun d p => if guessed.contains p.1 then d else addScore d p.1 (f p)) d,
      e.1 ∉ guessed ∧ 0 ≤ e.2 := by
  induction ps with
  | nil => intro d hd e he; exact hd e he
  | cons p ps ih =>
      intro d hd e he
      simp only [List.foldl_cons] at he
      by_cases hc : guessed.contains p.1
      · rw [if_pos hc] at he
        exact ih d hd e he
      · rw [if_neg hc] at he
        have hknot : p.1 ∉ guessed := by simpa using hc
        exact ih _ (addScore_entry_inv guessed p.1 (f p) hknot (hf p) d hd) e he

theorem scoreStep_inv (a : Agent) (pattern guessed : List Char)
    (ic : Nat × Char) (d : List (Char × ℚ))
    (hd : ∀ e ∈ d, e.1 ∉ guessed ∧ 0 ≤ e.2) :
    ∀ e ∈ scoreStep a pattern guessed d ic, e.1 ∉ guessed ∧ 0 ≤ e.2 := by
  unfold scoreStep
  split
  · exact foldl_addScore_inv guessed (fun p => (p.2 : ℚ))
      (fun p => by positivity) (positionalItems a ic.1) d hd
  · split
    · exact foldl_addScore_inv guessed (fun p => (p.2 : ℚ) * (3 / 2))
        (fun p => by positivity) (bigramItems a ic.2) d hd
    · exact hd

theorem letter_scores_inv (a : Agent) (pattern guessed : List Char) :
    ∀ e ∈ letter_scores a pattern guessed, e.1 ∉ guessed ∧ 0 ≤ e.2 := by
  unfold letter_scores
  have main : ∀ (ps : List (Nat × Char)) (d : List (Char × ℚ)),
      (∀ e ∈ d, e.1 ∉ guessed ∧ 0 ≤ e.2) →
      ∀ e ∈ ps.foldl (scoreStep a pattern guessed) d, e.1 ∉ guessed ∧ 0 ≤ e.2 := by
    intro ps
    induction ps with
    | nil => intro d hd e he; exact hd e he
    | cons ic ps ih =>
        intro d hd e he
        simp only [List.foldl_cons] at he
        exact ih _ (scoreStep_inv a pattern guessed ic d hd) e he
  exact main (enumL 0 pattern) [] (by intro e he; cases he)

theorem maxKeyAux_spec (rest : List (Char × ℚ)) :
    ∀ best : Char × ℚ,
    ∃ v, ((maxKeyAux best rest, v) = best ∨ (maxKeyAux best rest, v) ∈ rest)
      ∧ best.2 ≤ v ∧ ∀ e ∈ rest, e.2 ≤ v := by
  induction rest with
  | nil =>
      intro best
      exact ⟨best.2, Or.inl rfl, le_refl _, by intro e he; cases he⟩
  | cons p rest ih =>
      intro best
      obtain ⟨k, v0⟩ := p
      simp only [maxKeyAux]
      by_cases h : best.2 < v0
      · rw [if_pos h]
        obtain ⟨v, hmem, hbest, hall⟩ := ih (k, v0)
        refine ⟨v, ?_, le_trans (le_of_lt h) hbest, ?_⟩
        · rcases hmem with h1 | h1
          · right
            rw [h1]
            exact List.mem_cons_self _ _
          · exact Or.inr (List.mem_cons_of_mem _ h1)
        · intro e he
          rcases List.mem_cons.mp he with h1 | h1
          · subst h1
            exact hbest
          · exact hall e h1
      · rw [if_neg h]
        obtain ⟨v, hmem, hbest, hall⟩ := ih best
        refine ⟨v, ?_, hbest, ?_⟩
        · rcases hmem with h1 | h1
          · exact Or.inl h1
          · exact Or.inr (List.mem_cons_of_mem _ h1)
        · intro e he
          rcases List.mem_cons.mp he with h1 | h1
          · subst h1
            exact le_trans (le_of_not_lt h) hbest
          · exact hall e h1

theorem maxKey_spec (d : List (Char × ℚ)) (c : Char) (h : maxKey d = some c) :
    ∃ v, (c, v) ∈ d ∧ ∀ e ∈ d, e.2 ≤ v := by
  cases d with
  | nil => cases h
  | cons e rest =>
      simp only [maxKey, Option.some.injEq] at h
      subst h
      obtain ⟨v, hmem, hbest, hall⟩ := maxKeyAux_spec rest e
      refine ⟨v, ?_, ?_⟩
      · rcases hmem with h1 | h1
        · rw [h1]
          exact List.mem_cons_self _ _
        · exact List.mem_cons_of_mem _ h1
      · intro e' he'
        rcases List.mem_cons.mp he' with h1 | h1
        · subst h1
          exact hbest
        · exact hall e' h1

theorem guess_unguessed_of_some (a : Agent) (pattern guessed : List Char)
    (pick : List Char → Option Char)
    (hpick1 : ∀ (l : List Char) (c : Char), pick l = some c → c ∈ l)
    (c : Char) (h : guess a pattern guessed pick = some c) : c ∉ guessed := by
  unfold guess at h
  split at h
  next p heq =>
    obtain rfl : p.1 = c := by simpa using h
    have hfind : (most_common
        (filter_dictionary a.full_dictionary pattern guessed).flatten).find?
        (fun p => !guessed.contains p.1) = some p := by
      by_cases he : (filter_dictionary a.full_dictionary pattern guessed).isEmpty
      · rw [if_pos he] at heq
        cases heq
      · rwa [if_neg he] at heq
    have := List.find?_some hfind
    simpa using this
  next heq =>
    split at h
    next c' heq2 =>
      obtain rfl : c' = c := by simpa using h
      obtain ⟨v, hmem, -⟩ := maxKey_spec _ _ heq2
      exact (letter_scores_inv a pattern guessed (c', v) hmem).1
    next heq2 =>
      split at h
      next p heq3 =>
        obtain rfl : p.1 = c := by simpa using h
        have := List.find?_some heq3
        simpa using this
      next heq3 =>
        have hmem := hpick1 _ _ h
        have := List.mem_filter.mp hmem
        simpa using this.2

theorem guess_isSome_of_proper (a : Agent) (pattern guessed : List Char)
    (pick : List Char → Option Char)
    (hpick2 : ∀ l : List Char, l ≠ [] → (pick l).isSome = true)
    (hproper : ∃ ch ∈ alphabetList, ch ∉ guessed) :
    (guess a pattern guessed pick).isSome = true := by
  unfold guess
  split
  next p heq => rfl
  next heq =>
    split
    next c heq2 => rfl
    next heq2 =>
      split
      next p heq3 => rfl
      next heq3 =>
        apply hpick2
        obtain ⟨ch, hch, hchn⟩ := hproper
        have : ch ∈ alphabetList.filter fun c => !guessed.contains c :=
          List.mem_filter.mpr ⟨hch, by simpa using hchn⟩
        exact List.ne_nil_of_mem this

/-- C1: for any pattern and any guessed set that is a proper subset of the
26-letter alphabet, the cascade of `guess` (with any valid selection
function standing for `random.choice`) returns exactly one letter, that
letter is not in the guessed set, and the error branch
(`random.choice` on an empty list, modelled as `none`) is unreachable. -/
theorem guess_total_returns_unguessed (a : Agent) (pattern guessed : List Char)
    (pick : List Char → Option Char)
    (hpick1 : ∀ (l : List Char) (c : Char), pick l = some c → c ∈ l)
    (hpick2 : ∀ l : List Char, l ≠ [] → (pick l).isSome = true)
    (_hsub : ∀ g ∈ guessed, g ∈ alphabetList)
    (hproper : ∃ ch ∈ alphabetList, ch ∉ guessed) :
    ∃ c, guess a pattern guessed pick = some c ∧ c ∉ guessed := by
  have hs := guess_isSome_of_proper a pattern guessed pick hpick2 hproper
  obtain ⟨c, hc⟩ := Option.isSome_iff_exists.mp hs
  exact ⟨c, hc, guess_unguessed_of_some a pattern guessed pick hpick1 c hc⟩

theorem head?_mem_of_eq (l : List Char) (c : Char) (h : l.head? = some c) :
    c ∈ l := by
  cases l with
  | nil => cases h
  | cons a t =>
      obtain rfl : a = c := by simpa using h
      exact List.mem_cons_self a t

theorem head?_isSome_of_ne_nil (l : List Char) (h : l ≠ []) :
    (l.head?).isSome = true := by
  cases l with
  | nil => exact absurd rfl h
  | cons a t => rfl

theorem guess_total_returns_unguessed_witness :
    ∃ c, guess (mkAgent (('c' :: 'a' :: 't' :: 's' :: []) :: []))
        ('_' :: '_' :: '_' :: '_' :: []) ('e' :: []) List.head? = some c ∧
      c ∉ ('e' :: []) :=
  guess_total_returns_unguessed _ _ _ _
    head?_mem_of_eq head?_isSome_of_ne_nil
    (by decide) (by decide)

theorem mem_counterItems {s : List Char} {d : Char} {n : Nat} :
    (d, n) ∈ counterItems s ↔ d ∈ s ∧ n = s.count d := by
  unfold counterItems
  rw [List.mem_map]
  constructor
  · rintro ⟨c, hc, heq⟩
    obtain ⟨h1, h2⟩ : c = d ∧ s.count c = n := by simpa [Prod.ext_iff] using heq
    subst h1
    exact ⟨mem_uniqueFirst.mp hc, h2.symm⟩
  · rintro ⟨h1, h2⟩
    exact ⟨d, mem_uniqueFirst.mpr h1, by rw [h2]⟩

theorem mem_most_common {s : List Char} {x : Char × Nat} :
    x ∈ most_common s ↔ x ∈ counterItems s :=
  (List.perm_insertionSort byCountDesc (counterItems s)).mem_iff

theorem sorted_most_common (s : List Char) :
    List.Sorted byCountDesc (most_common s) :=
  List.sorted_insertionSort byCountDesc (counterItems s)

theorem find?_sorted_best :
    ∀ {l : List (Char × Nat)}, List.Sorted byCountDesc l →
    ∀ {q : (Char × Nat) → Bool} {x : Char × Nat}, l.find? q = some x →
    ∀ y ∈ l, q y = true → y.2 ≤ x.2 := by
  intro l
  induction l with
  | nil =>
      intro _ q x h
      cases h
  | cons a l' ih =>
      intro hs q x h y hy hqy
      by_cases hqa : q a = true
      · rw [List.find?_cons_of_pos _ hqa] at h
        obtain rfl : a = x := by simpa using h
        rcases List.mem_cons.mp hy with h1 | h1
        · subst h1
          exact le_refl _
        · exact List.rel_of_sorted_cons hs y h1
      · rw [List.find?_cons_of_neg _ (by simpa using hqa)] at h
        rcases List.mem_cons.mp hy with h1 | h1
        · subst h1
          exact absurd hqy hqa
        · exact ih hs.of_cons h y h1 hqy

/-- C3: whenever the candidate set is non-empty (and the guessed set is a
proper subset of the alphabet, the domain over which the cascade is
total), `guess` returns an un-guessed letter whose occurrence count in
the concatenation of all candidate words is maximal among the un-guessed
letters. -/
theorem guess_candidate_max_frequency (a : Agent) (pattern guessed : List Char)
    (pick : List Char → Option Char)
    (hpick1 : ∀ (l : List Char) (c : Char), pick l = some c → c ∈ l)
    (hpick2 : ∀ l : List Char, l ≠ [] → (pick l).isSome = true)
    (_hsub : ∀ g ∈ guessed, g ∈ alphabetList)
    (hproper : ∃ ch ∈ alphabetList, ch ∉ guessed)
    (hne : filter_dictionary a.full_dictionary pattern guessed ≠ []) :
    ∃ c, guess a pattern guessed pick = some c ∧ c ∉ guessed ∧
      ∀ d, d ∉ guessed →
        (filter_dictionary a.full_dictionary pattern guessed).flatten.count d
          ≤ (filter_dictionary a.full_dictionary pattern guessed).flatten.count c := by
  have hs := guess_isSome_of_proper a pattern guessed pick hpick2 hproper
  obtain ⟨c, hc⟩ := Option.isSome_iff_exists.mp hs
  have hcg := guess_unguessed_of_some a pattern guessed pick hpick1 c hc
  refine ⟨c, hc, hcg, ?_⟩
  intro d hd
  set fl := (filter_dictionary a.full_dictionary pattern guessed).flatten with hfl
  have hemp : (filter_dictionary a.full_dictionary pattern guessed).isEmpty = false := by
    simpa [List.isEmpty_iff] using hne
  cases hfind : (most_common fl).find? (fun p => !guessed.contains p.1) with
  | some x =>
      obtain ⟨x1, x2⟩ := x
      have hguess : guess a pattern guessed pick = some x1 := by
        unfold guess
        rw [hemp]
        simp only [Bool.false_eq_true, if_false]
        rw [← hfl, hfind]
      have hcx : x1 = c := by
        rw [hguess] at hc
        simpa using hc
      have hxitems : (x1, x2) ∈ counterItems fl :=
        mem_most_common.mp (List.mem_of_find?_eq_some hfind)
      obtain ⟨hxfl, hxcount⟩ := mem_counterItems.mp hxitems
      by_cases hdfl : d ∈ fl
      · have hdm : (d, fl.count d) ∈ most_common fl :=
          mem_most_common.mpr (mem_counterItems.mpr ⟨hdfl, rfl⟩)
        have hle := find?_sorted_best (sorted_most_common fl) hfind
          (d, fl.count d) hdm (by simpa using hd)
        rw [← hcx, ← hxcount]
        exact hle
      · rw [List.count_eq_zero.mpr hdfl]
        exact Nat.zero_le _
  | none =>
      have hall := List.find?_eq_none.mp hfind
      by_cases hdfl : d ∈ fl
      · exfalso
        have hdm : (d, fl.count d) ∈ most_common fl :=
          mem_most_common.mpr (mem_counterItems.mpr ⟨hdfl, rfl⟩)
        have := hall _ hdm
        simp only [Bool.not_eq_true, Bool.not_eq_false] at this
        exact hd (by simpa using this)
      · rw [List.count_eq_zero.mpr hdfl]
        exact Nat.zero_le _

theorem guess_candidate_max_frequency_witness :
    ∃ c, guess (mkAgent (('c' :: 'a' :: 't' :: 's' :: []) :: []))
        ('_' :: '_' :: '_' :: '_' :: []) [] List.head? = some c ∧
      c ∉ ([] : List Char) ∧
      ∀ d, d ∉ ([] : List Char) →
        (filter_dictionary (('c' :: 'a' :: 't' :: 's' :: []) :: [])
            ('_' :: '_' :: '_' :: '_' :: []) []).flatten.count d
          ≤ (filter_dictionary (('c' :: 'a' :: 't' :: 's' :: []) :: [])
              ('_' :: '_' :: '_' :: '_' :: []) []).flatten.count c :=
  guess_candidate_max_frequency _ _ _ _
    head?_mem_of_eq head?_isSome_of_ne_nil
    (by decide) (by decide) (by decide)

theorem lookupScore_addScore (k : Char) (v : ℚ) :
    ∀ (d : List (Char × ℚ)) (l : Char),
    lookupScore (addScore d k v) l
      = lookupScore d l + (if l = k then v else 0) := by
  intro d
  induction d with
  | nil =>
      intro l
      by_cases h : l = k
      · subst h
        simp [addScore, lookupScore]
      · show (if k = l then v else lookupScore [] l)
          = lookupScore [] l + (if l = k then v else 0)
        rw [if_neg (show ¬ k = l from fun hc => h hc.symm), if_neg h]
        simp [lookupScore]
  | cons p rest ih =>
      intro l
      obtain ⟨k', v'⟩ := p
      by_cases hk : k' = k
      · subst hk
        by_cases hl : k' = l
        · subst hl
          simp [addScore, lookupScore]
        · show lookupScore (addScore ((k', v') :: rest) k' v) l
            = lookupScore ((k', v') :: rest) l + (if l = k' then v else 0)
          rw [show addScore ((k', v') :: rest) k' v = (k', v' + v) :: rest from by
            simp [addScore]]
          show (if k' = l then v' + v else lookupScore rest l)
            = (if k' = l then v' else lookupScore rest l) + (if l = k' then v else 0)
          rw [if_neg hl, if_neg hl, if_neg (show ¬ l = k' from fun hc => hl hc.symm)]
          simp
      · show lookupScore (addScore ((k', v') :: rest) k v) l
          = lookupScore ((k', v') :: rest) l + (if l = k then v else 0)
        rw [show addScore ((k', v') :: rest) k v = (k', v') :: addScore rest k v from by
          simp [addScore, hk]]
        show (if k' = l then v' else lookupScore (addScore rest k v) l)
          = (if k' = l then v' else lookupScore rest l) + (if l = k then v else 0)
        by_cases hl : k' = l
        · subst hl
          rw [if_pos rfl, if_pos rfl,
            if_neg (show ¬ k' = k from hk)]
          simp
        · rw [if_neg hl, if_neg hl, ih l]

theorem foldl_addScore_lookup (guessed : List Char) (f : (Char × Nat) → ℚ)
    (ps : List (Char × Nat)) :
    ∀ (d : List (Char × ℚ)) (l : Char),
    lookupScore (ps.foldl
        (fun d p => if guessed.contains p.1 then d else addScore d p.1 (f p)) d) l
      = lookupScore d l
        + (if l ∈ guessed then 0
           else ((ps.filter fun p => decide (p.1 = l)).map f).sum) := by
  induction ps with
  | nil =>
      intro d l
      simp
  | cons p ps ih =>
      intro d l
      simp only [List.foldl_cons, List.filter_cons]
      by_cases hc : p.1 ∈ guessed
      · have hc' : guessed.contains p.1 = true := by simpa using hc
        rw [if_pos hc', ih d l]
        by_cases hpl : p.1 = l
        · have hcl : l ∈ guessed := hpl ▸ hc
          simp [hcl]
        · simp [hpl]
      · have hc' : ¬ guessed.contains p.1 = true := by simpa using hc
        rw [if_neg hc', ih _ l, lookupScore_addScore]
        by_cases hpl : p.1 = l
        · have hcl : l ∉ guessed := hpl ▸ hc
          rw [if_pos (show decide (p.1 = l) = true by simp [hpl])]
          simp only [if_neg hcl, if_pos (show l = p.1 from hpl.symm),
            List.map_cons, List.sum_cons]
          ring
        · rw [if_neg (show ¬ decide (p.1 = l) = true by simp [hpl]),
            if_neg (show ¬ l = p.1 from fun h => hpl h.symm)]
          ring

theorem mem_bigrams_right :
    ∀ (w : List Char) (p n : Char), (p, n) ∈ bigrams w → n ∈ w := by
  intro w
  induction w with
  | nil =>
      intro p n h
      cases h
  | cons a w' ih =>
      cases w' with
      | nil =>
          intro p n h
          cases h
      | cons b rest =>
          intro p n h
          rcases List.mem_cons.mp h with h1 | h1
          · obtain ⟨-, h2⟩ : p = a ∧ n = b := by simpa [Prod.ext_iff] using h1
            subst h2
            exact List.mem_cons_of_mem a (List.mem_cons_self n rest)
          · exact List.mem_cons_of_mem a (ih p n h1)

theorem positional_support (dict : List (List Char)) (i : Nat) (c : Char)
    (h : 0 < (trainTables dict).positional i c) : c ∈ dict.flatten := by
  rw [trainTables_positional] at h
  obtain ⟨w, hw, hp⟩ := List.countP_pos_iff.mp h
  have hc : w[i]? = some c := by simpa using hp
  have : c ∈ w := by
    obtain ⟨hlt, hget⟩ := List.getElem?_eq_some.mp hc
    exact hget ▸ List.getElem_mem hlt
  exact List.mem_flatten.mpr ⟨w, hw, this⟩

theorem bigram_support (dict : List (List Char)) (p c : Char)
    (h : 0 < (trainTables dict).bigram p c) : c ∈ dict.flatten := by
  rw [trainTables_bigram] at h
  by_contra hnc
  have hz : ∀ x ∈ dict.map fun w => (bigrams w).count (p, c), x = 0 := by
    intro x hx
    obtain ⟨w, hw, rfl⟩ := List.mem_map.mp hx
    by_contra hxz
    have hpos : 0 < (bigrams w).count (p, c) := Nat.pos_of_ne_zero hxz
    have hmem : (p, c) ∈ bigrams w := List.count_pos_iff.mp hpos
    exact hnc (List.mem_flatten.mpr ⟨w, hw, mem_bigrams_right w p c hmem⟩)
  rw [List.sum_eq_zero hz] at h
  exact Nat.lt_irrefl 0 h

theorem filter_key_map (g : Char → Nat) (l : Char) :
    ∀ (K : List Char), K.Nodup →
    (((K.filter fun c => decide (0 < g c)).map fun c => (c, g c)).filter
        fun p => decide (p.1 = l))
      = if l ∈ K ∧ 0 < g l then [(l, g l)] else [] := by
  intro K
  induction K with
  | nil =>
      intro _
      simp
  | cons k K ih =>
      intro hnd
      have hnd' : K.Nodup := (List.nodup_cons.mp hnd).2
      have hknotin : k ∉ K := (List.nodup_cons.mp hnd).1
      simp only [List.filter_cons]
      by_cases hgk : 0 < g k
      · rw [if_pos (by simpa using hgk)]
        simp only [List.map_cons, List.filter_cons]
        by_cases hkl : k = l
        · subst hkl
          rw [if_pos (by simp)]
          have hrest : (((K.filter fun c => decide (0 < g c)).map
              fun c => (c, g c)).filter fun p => decide (p.1 = k)) = [] := by
            rw [ih hnd']
            rw [if_neg (fun h => hknotin h.1)]
          rw [hrest, if_pos ⟨List.mem_cons_self _ _, hgk⟩]
        · rw [if_neg (show ¬ decide ((k, g k).1 = l) = true by simp [hkl])]
          rw [ih hnd']
          refine if_congr ?_ rfl rfl
          constructor
          · rintro ⟨h1, h2⟩
            exact ⟨List.mem_cons_of_mem k h1, h2⟩
          · rintro ⟨h1, h2⟩
            rcases List.mem_cons.mp h1 with h3 | h3
            · exact absurd h3.symm hkl
            · exact ⟨h3, h2⟩
      · rw [if_neg (by simpa using hgk), ih hnd']
        refine if_congr ?_ rfl rfl
        constructor
        · rintro ⟨h1, h2⟩
          exact ⟨List.mem_cons_of_mem k h1, h2⟩
        · rintro ⟨h1, h2⟩
          rcases List.mem_cons.mp h1 with h3 | h3
          · subst h3
            exact absurd h2 hgk
          · exact ⟨h3, h2⟩

/-- The contribution of one enumerated pattern position to the fallback
score of letter `l` (for an un-guessed `l`): the positional count at a
placeholder, 1.5 times the bigram count after a revealed character whose
successor is a placeholder, nothing otherwise. -/
def stepContrib (dict : List (List Char)) (pattern : List Char) (l : Char)
    (ic : Nat × Char) : ℚ :=
  if ic.2 = '_' then ((trainTables dict).positional ic.1 l : ℚ)
  else if pattern[ic.1 + 1]? = some '_' then
    ((trainTables dict).bigram ic.2 l : ℚ) * (3 / 2)
  else 0

theorem scoreStep_lookup (dict : List (List Char)) (pattern guessed : List Char)
    (l : Char) (hl : l ∉ guessed) (ic : Nat × Char) (d : List (Char × ℚ)) :
    lookupScore (scoreStep (mkAgent dict) pattern guessed d ic) l
      = lookupScore d l + stepContrib dict pattern l ic := by
  by_cases h1 : ic.2 = '_'
  · simp only [scoreStep, stepContrib, if_pos h1]
    rw [foldl_addScore_lookup guessed (fun p => (p.2 : ℚ))
      (positionalItems (mkAgent dict) ic.1) d l]
    rw [if_neg hl]
    congr 1
    have hitems : positionalItems (mkAgent dict) ic.1
        = ((uniqueFirst dict.flatten).filter fun c =>
            decide (0 < (trainTables dict).positional ic.1 c)).map
          fun c => (c, (trainTables dict).positional ic.1 c) := rfl
    rw [hitems, filter_key_map _ _ _ (nodup_uniqueFirst _)]
    by_cases hp : 0 < (trainTables dict).positional ic.1 l
    · rw [if_pos ⟨mem_uniqueFirst.mpr (positional_support dict ic.1 l hp), hp⟩]
      simp
    · rw [if_neg (fun h => hp h.2)]
      have hz : (trainTables dict).positional ic.1 l = 0 := by omega
      simp [hz]
  · by_cases h2 : pattern[ic.1 + 1]? = some '_'
    · simp only [scoreStep, stepContrib, if_neg h1, if_pos h2]
      rw [foldl_addScore_lookup guessed (fun p => (p.2 : ℚ) * (3 / 2))
        (bigramItems (mkAgent dict) ic.2) d l]
      rw [if_neg hl]
      congr 1
      have hitems : bigramItems (mkAgent dict) ic.2
          = ((uniqueFirst dict.flatten).filter fun c =>
              decide (0 < (trainTables dict).bigram ic.2 c)).map
            fun c => (c, (trainTables dict).bigram ic.2 c) := rfl
      rw [hitems, filter_key_map _ _ _ (nodup_uniqueFirst _)]
      by_cases hp : 0 < (trainTables dict).bigram ic.2 l
      · rw [if_pos ⟨mem_uniqueFirst.mpr (bigram_support dict ic.2 l hp), hp⟩]
        simp
      · rw [if_neg (fun h => hp h.2)]
        have hz : (trainTables dict).bigram ic.2 l = 0 := by omega
        simp [hz]
    · simp only [scoreStep, stepContrib, if_neg h1, if_neg h2]
      simp

theorem letter_scores_lookup (dict : List (List Char))
    (pattern guessed : List Char) (l : Char) (hl : l ∉ guessed) :
    lookupScore (letter_scores (mkAgent dict) pattern guessed) l
      = ((enumL 0 pattern).map (stepContrib dict pattern l)).sum := by
  have main : ∀ (ps : List (Nat × Char)) (d : List (Char × ℚ)),
      lookupScore (ps.foldl (scoreStep (mkAgent dict) pattern guessed) d) l
        = lookupScore d l + (ps.map (stepContrib dict pattern l)).sum := by
    intro ps
    induction ps with
    | nil => intro d; simp
    | cons ic ps ih =>
        intro d
        simp only [List.foldl_cons, List.map_cons, List.sum_cons]
        rw [ih, scoreStep_lookup dict pattern guessed l hl ic d]
        ring
  have h := main (enumL 0 pattern) []
  simpa [letter_scores, lookupScore] using h

theorem enumL_eq_range :
    ∀ (pat : List Char) (n : Nat),
    enumL n pat = (List.range pat.length).map fun j => (n + j, pat.getD j ' ') := by
  intro pat
  induction pat with
  | nil => intro n; simp [enumL]
  | cons c cs ih =>
      intro n
      simp only [enumL, List.length_cons, List.range_succ_eq_map, List.map_cons]
      rw [ih (n + 1), List.map_map]
      congr 1
      apply List.map_congr_left
      intro j hj
      simp only [Function.comp_apply, List.getD_cons_succ, Prod.mk.injEq]
      exact ⟨by omega, trivial⟩

/-- The fallback score as the specification words it: for each placeholder
position `i` of the pattern add `Positional[i][l]`, and for each revealed
character at a position whose immediate successor is a placeholder add
1.5 times `Adjacency[revealed][l]`. -/
def specFallbackScore (dict : List (List Char)) (pattern : List Char)
    (l : Char) : ℚ :=
  ((List.range pattern.length).map fun i =>
    if pattern.getD i ' ' = '_' then ((trainTables dict).positional i l : ℚ)
    else if pattern[i + 1]? = some '_' then
      (3 / 2) * ((trainTables dict).bigram (pattern.getD i ' ') l : ℚ)
    else 0).sum

theorem letter_scores_eq_spec (dict : List (List Char))
    (pattern guessed : List Char) (l : Char) (hl : l ∉ guessed) :
    lookupScore (letter_scores (mkAgent dict) pattern guessed) l
      = specFallbackScore dict pattern l := by
  rw [letter_scores_lookup dict pattern guessed l hl, enumL_eq_range pattern 0,
    List.map_map]
  unfold specFallbackScore
  apply congrArg List.sum
  apply List.map_congr_left
  intro j hj
  simp only [Function.comp_apply, stepContrib, Nat.zero_add]
  split_ifs
  · rfl
  · ring
  · rfl

theorem addScore_keys (k : Char) (v : ℚ) :
    ∀ d : List (Char × ℚ),
    (addScore d k v).map Prod.fst
      = if k ∈ d.map Prod.fst then d.map Prod.fst
        else d.map Prod.fst ++ [k] := by
  intro d
  induction d with
  | nil => simp [addScore]
  | cons p rest ih =>
      obtain ⟨k', v'⟩ := p
      by_cases hk : k' = k
      · subst hk
        rw [show addScore ((k', v') :: rest) k' v = (k', v' + v) :: rest from by
          simp [addScore]]
        simp only [List.map_cons]
        rw [if_pos (List.mem_cons_self _ _)]
      · rw [show addScore ((k', v') :: rest) k v = (k', v') :: addScore rest k v from by
          simp [addScore, hk]]
        simp only [List.map_cons]
        rw [ih]
        by_cases hmem : k ∈ rest.map Prod.fst
        · rw [if_pos hmem, if_pos (List.mem_cons_of_mem _ hmem)]
        · rw [if_neg hmem, if_neg (show ¬ k ∈ k' :: rest.map Prod.fst by
            intro hc
            rcases List.mem_cons.mp hc with h1 | h1
            · exact hk h1.symm
            · exact hmem h1)]
          simp

theorem addScore_keys_nodup (k : Char) (v : ℚ) (d : List (Char × ℚ))
    (h : (d.map Prod.fst).Nodup) : ((addScore d k v).map Prod.fst).Nodup := by
  rw [addScore_keys]
  by_cases hmem : k ∈ d.map Prod.fst
  · rw [if_pos hmem]
    exact h
  · rw [if_neg hmem]
    rw [List.nodup_append]
    refine ⟨h, List.nodup_singleton k, ?_⟩
    intro x hx hxk
    rw [List.mem_singleton] at hxk
    subst hxk
    exact hmem hx

theorem foldl_addScore_keys_nodup (guessed : List Char) (f : (Char × Nat) → ℚ)
    (ps : List (Char × Nat)) :
    ∀ d : List (Char × ℚ), (d.map Prod.fst).Nodup →
    (((ps.foldl (fun d p =>
        if guessed.contains p.1 then d else addScore d p.1 (f p)) d)).map
      Prod.fst).Nodup := by
  induction ps with
  | nil => intro d hd; exact hd
  | cons p ps ih =>
      intro d hd
      simp only [List.foldl_cons]
      by_cases hc : guessed.contains p.1 = true
      · rw [if_pos hc]
        exact ih d hd
      · rw [if_neg hc]
        exact ih _ (addScore_keys_nodup p.1 (f p) d hd)

theorem scoreStep_keys_nodup (a : Agent) (pattern guessed : List Char)
    (ic : Nat × Char) (d : List (Char × ℚ)) (hd : (d.map Prod.fst).Nodup) :
    (((scoreStep a pattern guessed d ic)).map Prod.fst).Nodup := by
  unfold scoreStep
  split
  · exact foldl_addScore_keys_nodup guessed (fun p => (p.2 : ℚ))
      (positionalItems a ic.1) d hd
  · split
    · exact foldl_addScore_keys_nodup guessed (fun p => (p.2 : ℚ) * (3 / 2))
        (bigramItems a ic.2) d hd
    · exact hd

theorem letter_scores_keys_nodup (a : Agent) (pattern guessed : List Char) :
    (((letter_scores a pattern guessed)).map Prod.fst).Nodup := by
  unfold letter_scores
  have main : ∀ (ps : List (Nat × Char)) (d : List (Char × ℚ)),
      (d.map Prod.fst).Nodup →
      ((ps.foldl (scoreStep a pattern guessed) d).map Prod.fst).Nodup := by
    intro ps
    induction ps with
    | nil => intro d hd; exact hd
    | cons ic ps ih =>
        intro d hd
        simp only [List.foldl_cons]
        exact ih _ (scoreStep_keys_nodup a pattern guessed ic d hd)
  exact main (enumL 0 pattern) [] (by simp)

theorem lookupScore_of_mem :
    ∀ (d : List (Char × ℚ)), (d.map Prod.fst).Nodup →
    ∀ (k : Char) (v : ℚ), (k, v) ∈ d → lookupScore d k = v := by
  intro d
  induction d with
  | nil =>
      intro _ k v h
      cases h
  | cons p rest ih =>
      intro hnd k v h
      obtain ⟨k', v'⟩ := p
      simp only [List.map_cons] at hnd
      have hnd' := List.nodup_cons.mp hnd
      rcases List.mem_cons.mp h with h1 | h1
      · obtain ⟨hk, hv⟩ : k = k' ∧ v = v' := by simpa [Prod.ext_iff] using h1
        subst hk
        subst hv
        show (if k = k then v else lookupScore rest k) = v
        rw [if_pos rfl]
      · have hk'ne : ¬ k' = k := by
          intro hc
          subst hc
          exact hnd'.1 (List.mem_map.mpr ⟨(k', v), h1, rfl⟩)
        show (if k' = k then v' else lookupScore rest k) = v
        rw [if_neg hk'ne]
        exact ih hnd'.2 k v h1

theorem lookupScore_eq_zero :
    ∀ (d : List (Char × ℚ)) (k : Char), k ∉ d.map Prod.fst →
    lookupScore d k = 0 := by
  intro d
  induction d with
  | nil => intro k _; rfl
  | cons p rest ih =>
      intro k hk
      obtain ⟨k', v'⟩ := p
      simp only [List.map_cons, List.mem_cons] at hk
      push_neg at hk
      show (if k' = k then v' else lookupScore rest k) = 0
      rw [if_neg (fun hc => hk.1 hc.symm)]
      exact ih k hk.2

theorem mem_of_key (d : List (Char × ℚ)) (k : Char)
    (h : k ∈ d.map Prod.fst) : ∃ v, (k, v) ∈ d := by
  obtain ⟨p, hp, hfst⟩ := List.mem_map.mp h
  exact ⟨p.2, by rwa [show (k, p.2) = p from by rw [← hfst]]⟩

/-- C7: when the candidate set is empty, the fallback of `guess`
accumulates, for every un-guessed letter, exactly the spec's score (the
positional counts over placeholder positions plus 1.5 times the bigram
counts after revealed characters whose successor is a placeholder), and
if any letter scored, `guess` returns a letter of maximal accumulated
score. -/
theorem fallback_scoring_spec (dict : List (List Char))
    (pattern guessed : List Char) (pick : List Char → Option Char)
    (hempty : filter_dictionary dict pattern guessed = []) :
    (∀ l, l ∉ guessed →
      lookupScore (letter_scores (mkAgent dict) pattern guessed) l
        = specFallbackScore dict pattern l) ∧
    (letter_scores (mkAgent dict) pattern guessed ≠ [] →
      ∃ c, guess (mkAgent dict) pattern guessed pick = some c ∧
        ∀ d, lookupScore (letter_scores (mkAgent dict) pattern guessed) d
          ≤ lookupScore (letter_scores (mkAgent dict) pattern guessed) c) := by
  constructor
  · intro l hl
    exact letter_scores_eq_spec dict pattern guessed l hl
  · intro hscores
    cases hmk : maxKey (letter_scores (mkAgent dict) pattern guessed) with
    | none =>
        exfalso
        cases hsc : letter_scores (mkAgent dict) pattern guessed with
        | nil => exact hscores hsc
        | cons e rest =>
            rw [hsc] at hmk
            cases hmk
    | some c =>
        refine ⟨c, ?_, ?_⟩
        · have hemp : (filter_dictionary (mkAgent dict).full_dictionary
              pattern guessed).isEmpty = true := by
            show (filter_dictionary dict pattern guessed).isEmpty = true
            rw [hempty]
            rfl
          unfold guess
          rw [if_pos hemp, hmk]
        · intro d
          obtain ⟨v, hmem, hall⟩ :=
            maxKey_spec (letter_scores (mkAgent dict) pattern guessed) c hmk
          have hnd := letter_scores_keys_nodup (mkAgent dict) pattern guessed
          have hvc : lookupScore (letter_scores (mkAgent dict) pattern guessed) c
              = v := lookupScore_of_mem _ hnd c v hmem
          rw [hvc]
          by_cases hdk : d ∈ (letter_scores (mkAgent dict) pattern guessed).map
              Prod.fst
          · obtain ⟨vd, hvd⟩ := mem_of_key _ d hdk
            rw [lookupScore_of_mem _ hnd d vd hvd]
            exact hall (d, vd) hvd
          · rw [lookupScore_eq_zero _ d hdk]
            exact (letter_scores_inv (mkAgent dict) pattern guessed (c, v) hmem).2

theorem fallback_scoring_spec_witness :
    lookupScore (letter_scores (mkAgent (('c' :: 'a' :: 't' :: 's' :: []) :: []))
        ('_' :: 'x' :: '_' :: '_' :: '_' :: []) ('x' :: [])) 'a'
      = specFallbackScore (('c' :: 'a' :: 't' :: 's' :: []) :: [])
          ('_' :: 'x' :: '_' :: '_' :: '_' :: []) 'a' :=
  (fallback_scoring_spec (('c' :: 'a' :: 't' :: 's' :: []) :: [])
      ('_' :: 'x' :: '_' :: '_' :: '_' :: []) ('x' :: []) List.head?
      (by decide)).1 'a' (by decide)
